import Mathlib

/-!
Verification of the expense-splitter core (`expense_splitter_pro.py`).

The ledger is the `Participant`/`Amount` table: a list of pairs
`(name, totalPaid)`.  Monetary quantities are modelled as exact rationals.
The definitions below are shallow embeddings of the handler code:

* `addParticipant` — the add-participant handler (tab 1, lines 51-59);
* `allocate` — the add-expense handler (tab 2, lines 72-103), including the
  empty-ledger guard (line 72), the amount guard (line 89), the equal split
  (lines 92-94) and the weighted split with its percentage-sum guard
  (lines 96-99);
* `computeBalances` — the balance computation (tab 3, lines 112-115);
* `debtors` / `creditors` / `settleLoopF` / `computeSettlement` — the greedy
  settlement loop (tab 3, lines 133-145).  The `while` loop is written with
  explicit fuel; `settleLoopF` returns `none` when the fuel runs out, and the
  termination theorem shows fuel `debtors + creditors` always suffices.
  Besides the emitted transfers it returns the final (mutated) balance
  columns of the debtor and creditor frames, in order.
-/

/-- A ledger row: participant name and cumulative amount paid. -/
abbrev Ledger := List (String × ℚ)

/-- The settlement tolerance used by the source (`1e-6`, line 144-145). -/
def eps : ℚ := 1 / 1000000

/-- Sum of the `Amount`/`Balance` column of a table. -/
def sumSnd (l : List (String × ℚ)) : ℚ := (l.map (·.2)).sum

/-- Outcome of the add-participant handler. `duplicateName` is the
"Participant already exists" warning (line 59); `emptyNameIgnored` models the
handler body being skipped because an empty string is falsy (line 51). -/
inductive AddError where
  | duplicateName
  | emptyNameIgnored
deriving DecidableEq

/-- The add-participant handler (lines 51-59): the button does nothing for an
empty name, warns on an exact (case-sensitive) duplicate, and otherwise
appends a row with amount `0.0`.  Returns the resulting ledger together with
the error, if any; on error the ledger is returned unchanged. -/
def addParticipant (l : Ledger) (name : String) : Ledger × Option AddError :=
  if name = "" then (l, some .emptyNameIgnored)
  else if name ∈ l.map (·.1) then (l, some .duplicateName)
  else (l ++ [(name, 0)], none)

/-- Split policy chosen in tab 2: equal, or unequal with one percentage share
per participant, in ledger order (lines 78-86). -/
inductive Policy where
  | equal
  | weighted (shares : List ℚ)

/-- Failures of the add-expense handler: the "add participants first" guard
(line 72), the "Enter a valid amount" guard (line 89), and the "Percentages
must sum to 100" guard (lines 96-98). -/
inductive AllocError where
  | emptyLedger
  | invalidAmount
  | percentageSum
deriving DecidableEq

/-- The add-expense handler (lines 72-103).  Guards in source order: empty
ledger, non-positive amount, and (for unequal splits) the percentage-sum
check `abs (sum shares - 100) > 0.01`.  On success every row's amount is
incremented — by `amount / N` for equal splits, by `amount * (share / 100)`
positionally for weighted splits.  Returns the resulting ledger and the
error, if any; on error the ledger is returned unchanged. -/
def allocate (l : Ledger) (amount : ℚ) (p : Policy) : Ledger × Option AllocError :=
  if l = [] then (l, some .emptyLedger)
  else if amount ≤ 0 then (l, some .invalidAmount)
  else
    match p with
    | .equal => (l.map (fun q => (q.1, q.2 + amount / (l.length : ℚ))), none)
    | .weighted shares =>
        if 1 / 100 < |shares.sum - 100| then (l, some .percentageSum)
        else (List.zipWith (fun q s => (q.1, q.2 + amount * (s / 100))) l shares, none)

/-- The balance computation (lines 112-115): each row's balance is its amount
minus the fair share `total / N`. -/
def computeBalances (l : Ledger) : List (String × ℚ) :=
  l.map (fun q => (q.1, q.2 - sumSnd l / (l.length : ℚ)))

/-- The debtor frame (line 133): rows with strictly negative balance, in
original order. -/
def debtors (bal : List (String × ℚ)) : List (String × ℚ) :=
  bal.filter (fun q => q.2 < 0)

/-- The creditor frame (line 134): rows with strictly positive balance, in
original order. -/
def creditors (bal : List (String × ℚ)) : List (String × ℚ) :=
  bal.filter (fun q => 0 < q.2)

/-- The greedy settlement loop (lines 136-145), with explicit fuel.  Each
iteration pays `min (-debtorBalance) creditorBalance`, records the transfer,
adjusts both balances, and advances past any balance whose magnitude fell
below `eps`.  Returns the transfer list and the final balance columns of the
debtor and creditor frames (in order); `none` means the fuel ran out before a
frame was exhausted. -/
def settleLoopF : Nat → List (String × ℚ) → List (String × ℚ) →
    Option (List (String × String × ℚ) × List (String × ℚ) × List (String × ℚ))
  | _, [], cs => some ([], [], cs)
  | _, d :: ds, [] => some ([], d :: ds, [])
  | 0, _ :: _, _ :: _ => none
  | fuel + 1, d :: ds, c :: cs =>
      let pay := min (-d.2) c.2
      match settleLoopF fuel
          (if |d.2 + pay| < eps then ds else (d.1, d.2 + pay) :: ds)
          (if |c.2 - pay| < eps then cs else (c.1, c.2 - pay) :: cs) with
      | none => none
      | some (ts, fds, fcs) =>
          some ((d.1, c.1, pay) :: ts,
            if |d.2 + pay| < eps then (d.1, d.2 + pay) :: fds else fds,
            if |c.2 - pay| < eps then (c.1, c.2 - pay) :: fcs else fcs)

/-- The settlement suggestions computation (lines 133-145): partition the
balances into debtors and creditors and run the greedy loop.  The fuel
`debtors + creditors` matches the loop-termination bound proved below. -/
def computeSettlement (bal : List (String × ℚ)) :
    Option (List (String × String × ℚ) × List (String × ℚ) × List (String × ℚ)) :=
  settleLoopF ((debtors bal).length + (creditors bal).length) (debtors bal) (creditors bal)

/-- Residual bound established for the greedy loop: `(D + C) * eps`. -/
def settledBound (bal : List (String × ℚ)) : ℚ :=
  (((debtors bal).length + (creditors bal).length : ℕ) : ℚ) * eps

-- ### Basic arithmetic helper lemmas

theorem eps_pos : 0 < eps := by norm_num [eps]

theorem length_pos_of_ne_nil {l : Ledger} (h : l ≠ []) : 0 < l.length :=
  List.length_pos.mpr h

theorem length_cast_ne_zero {l : Ledger} (h : l ≠ []) : ((l.length : ℕ) : ℚ) ≠ 0 := by
  exact_mod_cast Nat.pos_iff_ne_zero.mp (length_pos_of_ne_nil h)

theorem sumSnd_cons (p : String × ℚ) (l : List (String × ℚ)) :
    sumSnd (p :: l) = p.2 + sumSnd l := by
  simp [sumSnd]

theorem sumSnd_map_add (l : Ledger) (c : ℚ) :
    sumSnd (l.map (fun q => (q.1, q.2 + c))) = sumSnd l + l.length * c := by
  induction l with
  | nil => simp [sumSnd]
  | cons p l ih =>
      simp only [List.map_cons, sumSnd_cons, ih, List.length_cons]
      push_cast
      ring

theorem sumSnd_computeBalances (l : Ledger) (h : l ≠ []) :
    sumSnd (computeBalances l) = 0 := by
  have hN : ((l.length : ℕ) : ℚ) ≠ 0 := length_cast_ne_zero h
  have : computeBalances l = l.map (fun q => (q.1, q.2 + -(sumSnd l / (l.length : ℚ)))) := by
    simp [computeBalances, sub_eq_add_neg]
  rw [this, sumSnd_map_add]
  field_simp
  ring

-- ### Allocator helper lemmas (shared by several claims)

theorem allocate_equal_eq (l : Ledger) (amount : ℚ) (hne : l ≠ []) (hpos : 0 < amount) :
    allocate l amount Policy.equal =
      (l.map (fun q => (q.1, q.2 + amount / (l.length : ℚ))), none) := by
  simp [allocate, hne, not_le.mpr hpos]

theorem allocate_weighted_eq (l : Ledger) (amount : ℚ) (shares : List ℚ)
    (hne : l ≠ []) (hpos : 0 < amount) (hsum : |shares.sum - 100| ≤ 1 / 100) :
    allocate l amount (Policy.weighted shares) =
      (List.zipWith (fun q s => (q.1, q.2 + amount * (s / 100))) l shares, none) := by
  simp only [allocate, if_neg hne, if_neg (not_le.mpr hpos), if_neg (not_lt.mpr hsum)]

-- ### Unfolding lemmas for the settlement loop

theorem settleLoopF_nil_left (fuel : Nat) (cs : List (String × ℚ)) :
    settleLoopF fuel [] cs = some ([], [], cs) := by
  cases fuel <;> rfl

theorem settleLoopF_nil_right (fuel : Nat) (d : String × ℚ) (ds : List (String × ℚ)) :
    settleLoopF fuel (d :: ds) [] = some ([], d :: ds, []) := by
  cases fuel <;> rfl

theorem settleLoopF_zero_cons (d c : String × ℚ) (ds cs : List (String × ℚ)) :
    settleLoopF 0 (d :: ds) (c :: cs) = none := rfl

theorem settleLoopF_succ_cons (fuel : Nat) (d c : String × ℚ) (ds cs : List (String × ℚ)) :
    settleLoopF (fuel + 1) (d :: ds) (c :: cs) =
      match settleLoopF fuel
          (if |d.2 + min (-d.2) c.2| < eps then ds else (d.1, d.2 + min (-d.2) c.2) :: ds)
          (if |c.2 - min (-d.2) c.2| < eps then cs else (c.1, c.2 - min (-d.2) c.2) :: cs) with
      | none => none
      | some (ts, fds, fcs) =>
          some ((d.1, c.1, min (-d.2) c.2) :: ts,
            if |d.2 + min (-d.2) c.2| < eps then (d.1, d.2 + min (-d.2) c.2) :: fds else fds,
            if |c.2 - min (-d.2) c.2| < eps then (c.1, c.2 - min (-d.2) c.2) :: fcs else fcs) :=
  rfl

/-- In every iteration the payment `min (-db) cb` zeroes the debtor or the
creditor balance exactly, so the corresponding advance test succeeds. -/
theorem pay_dichotomy (d c : String × ℚ) :
    (|d.2 + min (-d.2) c.2| < eps ∧ d.2 + min (-d.2) c.2 = 0) ∨
    (|c.2 - min (-d.2) c.2| < eps ∧ c.2 - min (-d.2) c.2 = 0) := by
  rcases min_choice (-d.2) c.2 with hm | hm
  · left
    rw [hm]
    constructor
    · simpa using eps_pos
    · simp
  · right
    rw [hm]
    constructor
    · simpa using eps_pos
    · simp

/-- Termination of the greedy loop: fuel `|debtors| + |creditors|` always
suffices, because each iteration drops at least one list head. -/
theorem settleLoopF_isSome (fuel : Nat) (ds cs : List (String × ℚ))
    (h : ds.length + cs.length ≤ fuel) : (settleLoopF fuel ds cs).isSome := by
  induction fuel generalizing ds cs with
  | zero =>
    rcases ds with _ | ⟨d, ds⟩
    · simp [settleLoopF_nil_left]
    · rcases cs with _ | ⟨c, cs⟩
      · simp [settleLoopF_nil_right]
      · simp at h
  | succ fuel ih =>
    rcases ds with _ | ⟨d, ds⟩
    · simp [settleLoopF_nil_left]
    · rcases cs with _ | ⟨c, cs⟩
      · simp [settleLoopF_nil_right]
      · rw [settleLoopF_succ_cons]
        have hlen : (if |d.2 + min (-d.2) c.2| < eps then ds
              else (d.1, d.2 + min (-d.2) c.2) :: ds).length +
            (if |c.2 - min (-d.2) c.2| < eps then cs
              else (c.1, c.2 - min (-d.2) c.2) :: cs).length ≤ fuel := by
          simp only [List.length_cons] at h
          rcases pay_dichotomy d c with ⟨hcond, _⟩ | ⟨hcond, _⟩
          · rw [if_pos hcond]
            split
            · omega
            · simp only [List.length_cons]
              omega
          · rw [if_pos hcond]
            split
            · omega
            · simp only [List.length_cons]
              omega
        have hsome := ih _ _ hlen
        rw [Option.isSome_iff_exists] at hsome
        obtain ⟨⟨ts, fds, fcs⟩, hr⟩ := hsome
        rw [hr]
        simp

theorem settleLoopF_succ_cons_map (fuel : Nat) (d c : String × ℚ) (ds cs : List (String × ℚ)) :
    settleLoopF (fuel + 1) (d :: ds) (c :: cs) =
      Option.map (fun r =>
          ((d.1, c.1, min (-d.2) c.2) :: r.1,
            (if |d.2 + min (-d.2) c.2| < eps then (d.1, d.2 + min (-d.2) c.2) :: r.2.1 else r.2.1),
            (if |c.2 - min (-d.2) c.2| < eps then (c.1, c.2 - min (-d.2) c.2) :: r.2.2 else r.2.2)))
        (settleLoopF fuel
          (if |d.2 + min (-d.2) c.2| < eps then ds else (d.1, d.2 + min (-d.2) c.2) :: ds)
          (if |c.2 - min (-d.2) c.2| < eps then cs else (c.1, c.2 - min (-d.2) c.2) :: cs)) := by
  rw [settleLoopF_succ_cons]
  rcases settleLoopF fuel _ _ with _ | ⟨⟨ts, fds, fcs⟩⟩ <;> rfl

/-- Loop invariant for the greedy settlement loop.  Given strictly negative
debtor balances and strictly positive creditor balances, a successful run
satisfies: the transfer-count bound, strict positivity of every transfer,
preservation of frame lengths and of the total balance, sign preservation of
the final balances, and full `eps`-settlement of at least one side. -/
theorem settleLoopF_invariant (fuel : Nat) (ds cs : List (String × ℚ))
    (ts : List (String × String × ℚ)) (fds fcs : List (String × ℚ))
    (hd : ∀ p ∈ ds, p.2 < 0) (hc : ∀ p ∈ cs, 0 < p.2)
    (h : settleLoopF fuel ds cs = some (ts, fds, fcs)) :
    ts.length ≤ ds.length + cs.length - 1 ∧
    (∀ t ∈ ts, 0 < t.2.2) ∧
    fds.length = ds.length ∧ fcs.length = cs.length ∧
    sumSnd fds + sumSnd fcs = sumSnd ds + sumSnd cs ∧
    (∀ p ∈ fds, p.2 ≤ 0) ∧ (∀ p ∈ fcs, 0 ≤ p.2) ∧
    ((∀ p ∈ fds, -eps < p.2) ∨ (∀ p ∈ fcs, p.2 < eps)) := by
  induction fuel generalizing ds cs ts fds fcs with
  | zero =>
    rcases ds with _ | ⟨d, ds⟩
    · rw [settleLoopF_nil_left] at h
      simp only [Option.some.injEq, Prod.mk.injEq] at h
      obtain ⟨rfl, rfl, rfl⟩ := h
      exact ⟨Nat.zero_le _, by simp, rfl, rfl, rfl, by simp,
        fun p hp => le_of_lt (hc p hp), Or.inl (by simp)⟩
    · rcases cs with _ | ⟨c, cs⟩
      · rw [settleLoopF_nil_right] at h
        simp only [Option.some.injEq, Prod.mk.injEq] at h
        obtain ⟨rfl, rfl, rfl⟩ := h
        exact ⟨Nat.zero_le _, by simp, rfl, rfl, rfl,
          fun p hp => le_of_lt (hd p hp), by simp, Or.inr (by simp)⟩
      · rw [settleLoopF_zero_cons] at h
        cases h
  | succ fuel ih =>
    rcases ds with _ | ⟨d, ds⟩
    · rw [settleLoopF_nil_left] at h
      simp only [Option.some.injEq, Prod.mk.injEq] at h
      obtain ⟨rfl, rfl, rfl⟩ := h
      exact ⟨Nat.zero_le _, by simp, rfl, rfl, rfl, by simp,
        fun p hp => le_of_lt (hc p hp), Or.inl (by simp)⟩
    · rcases cs with _ | ⟨c, cs⟩
      · rw [settleLoopF_nil_right] at h
        simp only [Option.some.injEq, Prod.mk.injEq] at h
        obtain ⟨rfl, rfl, rfl⟩ := h
        exact ⟨Nat.zero_le _, by simp, rfl, rfl, rfl,
          fun p hp => le_of_lt (hd p hp), by simp, Or.inr (by simp)⟩
      · rw [settleLoopF_succ_cons_map, Option.map_eq_some'] at h
        obtain ⟨⟨ts0, fds0, fcs0⟩, hrec, hf⟩ := h
        simp only [Prod.mk.injEq] at hf
        obtain ⟨rfl, rfl, rfl⟩ := hf
        have hd2 : d.2 < 0 := hd d (List.mem_cons_self d ds)
        have hc2 : 0 < c.2 := hc c (List.mem_cons_self c cs)
        have hd' : ∀ p ∈ ds, p.2 < 0 := fun p hp => hd p (List.mem_cons_of_mem _ hp)
        have hc' : ∀ p ∈ cs, 0 < p.2 := fun p hp => hc p (List.mem_cons_of_mem _ hp)
        have hpay : 0 < min (-d.2) c.2 := lt_min (by linarith) hc2
        have hdb : d.2 + min (-d.2) c.2 ≤ 0 := by
          have h1 := min_le_left (-d.2) c.2
          linarith
        have hcb : 0 ≤ c.2 - min (-d.2) c.2 := by
          have h1 := min_le_right (-d.2) c.2
          linarith
        by_cases hcd : |d.2 + min (-d.2) c.2| < eps
        · by_cases hcc : |c.2 - min (-d.2) c.2| < eps
          · -- both balances pass the advance test
            rw [if_pos hcd, if_pos hcc] at hrec
            simp only [if_pos hcd, if_pos hcc]
            obtain ⟨icnt, ipos, ilen1, ilen2, isum, isg1, isg2, iside⟩ :=
              ih ds cs ts0 fds0 fcs0 hd' hc' hrec
            refine ⟨?_, ?_, ?_, ?_, ?_, ?_, ?_, ?_⟩
            · simp only [List.length_cons]
              omega
            · intro t ht
              rcases List.mem_cons.mp ht with rfl | ht'
              · exact hpay
              · exact ipos t ht'
            · simp only [List.length_cons, ilen1]
            · simp only [List.length_cons, ilen2]
            · simp only [sumSnd_cons]
              linarith [isum]
            · intro p hp
              rcases List.mem_cons.mp hp with rfl | hp'
              · exact hdb
              · exact isg1 p hp'
            · intro p hp
              rcases List.mem_cons.mp hp with rfl | hp'
              · exact hcb
              · exact isg2 p hp'
            · rcases iside with hside | hside
              · left
                intro p hp
                rcases List.mem_cons.mp hp with rfl | hp'
                · exact (abs_lt.mp hcd).1
                · exact hside p hp'
              · right
                intro p hp
                rcases List.mem_cons.mp hp with rfl | hp'
                · exact (abs_lt.mp hcc).2
                · exact hside p hp'
          · -- debtor advances, creditor keeps a positive remainder
            rw [if_pos hcd, if_neg hcc] at hrec
            simp only [if_pos hcd, if_neg hcc]
            have hcb0 : c.2 - min (-d.2) c.2 ≠ 0 := by
              intro h0
              exact hcc (by rw [h0]; simpa using eps_pos)
            have hc'' : ∀ p ∈ (c.1, c.2 - min (-d.2) c.2) :: cs, 0 < p.2 := by
              intro p hp
              rcases List.mem_cons.mp hp with rfl | hp'
              · exact lt_of_le_of_ne hcb (Ne.symm hcb0)
              · exact hc' p hp'
            obtain ⟨icnt, ipos, ilen1, ilen2, isum, isg1, isg2, iside⟩ :=
              ih ds ((c.1, c.2 - min (-d.2) c.2) :: cs) ts0 fds0 fcs0 hd' hc'' hrec
            refine ⟨?_, ?_, ?_, ?_, ?_, ?_, ?_, ?_⟩
            · simp only [List.length_cons] at icnt ⊢
              omega
            · intro t ht
              rcases List.mem_cons.mp ht with rfl | ht'
              · exact hpay
              · exact ipos t ht'
            · simp only [List.length_cons, ilen1]
            · simp only [List.length_cons] at ilen2 ⊢
              omega
            · simp only [sumSnd_cons] at isum ⊢
              linarith [isum]
            · intro p hp
              rcases List.mem_cons.mp hp with rfl | hp'
              · exact hdb
              · exact isg1 p hp'
            · exact isg2
            · rcases iside with hside | hside
              · left
                intro p hp
                rcases List.mem_cons.mp hp with rfl | hp'
                · exact (abs_lt.mp hcd).1
                · exact hside p hp'
              · right
                exact hside
        · by_cases hcc : |c.2 - min (-d.2) c.2| < eps
          · -- creditor advances, debtor keeps a negative remainder
            rw [if_neg hcd, if_pos hcc] at hrec
            simp only [if_neg hcd, if_pos hcc]
            have hdb0 : d.2 + min (-d.2) c.2 ≠ 0 := by
              intro h0
              exact hcd (by rw [h0]; simpa using eps_pos)
            have hd'' : ∀ p ∈ (d.1, d.2 + min (-d.2) c.2) :: ds, p.2 < 0 := by
              intro p hp
              rcases List.mem_cons.mp hp with rfl | hp'
              · exact lt_of_le_of_ne hdb hdb0
              · exact hd' p hp'
            obtain ⟨icnt, ipos, ilen1, ilen2, isum, isg1, isg2, iside⟩ :=
              ih ((d.1, d.2 + min (-d.2) c.2) :: ds) cs ts0 fds0 fcs0 hd'' hc' hrec
            refine ⟨?_, ?_, ?_, ?_, ?_, ?_, ?_, ?_⟩
            · simp only [List.length_cons] at icnt ⊢
              omega
            · intro t ht
              rcases List.mem_cons.mp ht with rfl | ht'
              · exact hpay
              · exact ipos t ht'
            · simp only [List.length_cons] at ilen1 ⊢
              omega
            · simp only [List.length_cons, ilen2]
            · simp only [sumSnd_cons] at isum ⊢
              linarith [isum]
            · exact isg1
            · intro p hp
              rcases List.mem_cons.mp hp with rfl | hp'
              · exact hcb
              · exact isg2 p hp'
            · rcases iside with hside | hside
              · left
                exact hside
              · right
                intro p hp
                rcases List.mem_cons.mp hp with rfl | hp'
                · exact (abs_lt.mp hcc).2
                · exact hside p hp'
          · -- impossible: the payment zeroes one of the two balances
            rcases pay_dichotomy d c with ⟨hx, _⟩ | ⟨hx, _⟩
            · exact absurd hx hcd
            · exact absurd hx hcc

-- ### Partition and bound helper lemmas

theorem mem_debtors (bal : List (String × ℚ)) (p : String × ℚ) :
    p ∈ debtors bal ↔ p ∈ bal ∧ p.2 < 0 := by
  simp [debtors, List.mem_filter]

theorem mem_creditors (bal : List (String × ℚ)) (p : String × ℚ) :
    p ∈ creditors bal ↔ p ∈ bal ∧ 0 < p.2 := by
  simp [creditors, List.mem_filter]

theorem sumSnd_debtors_add_creditors (bal : List (String × ℚ)) :
    sumSnd (debtors bal) + sumSnd (creditors bal) = sumSnd bal := by
  induction bal with
  | nil => simp [debtors, creditors, sumSnd]
  | cons p bal ih =>
      rcases lt_trichotomy p.2 0 with hlt | heq | hgt
      · have h1 : debtors (p :: bal) = p :: debtors bal := by
          simp [debtors, List.filter_cons, hlt]
        have h2 : creditors (p :: bal) = creditors bal := by
          simp [creditors, List.filter_cons, not_lt.mpr (le_of_lt hlt)]
        rw [h1, h2, sumSnd_cons, sumSnd_cons]
        linarith [ih]
      · have h1 : debtors (p :: bal) = debtors bal := by
          simp [debtors, List.filter_cons, heq]
        have h2 : creditors (p :: bal) = creditors bal := by
          simp [creditors, List.filter_cons, heq]
        rw [h1, h2, sumSnd_cons, heq]
        linarith [ih]
      · have h1 : debtors (p :: bal) = debtors bal := by
          simp [debtors, List.filter_cons, not_lt.mpr (le_of_lt hgt)]
        have h2 : creditors (p :: bal) = p :: creditors bal := by
          simp [creditors, List.filter_cons, hgt]
        rw [h1, h2, sumSnd_cons, sumSnd_cons]
        linarith [ih]

theorem sumSnd_le_of_nonpos (l : List (String × ℚ)) (h : ∀ p ∈ l, p.2 ≤ 0) :
    ∀ p ∈ l, sumSnd l ≤ p.2 := by
  induction l with
  | nil => simp
  | cons q l ih =>
      intro p hp
      have hq : q.2 ≤ 0 := h q (List.mem_cons_self q l)
      have h' : ∀ p ∈ l, p.2 ≤ 0 := fun p hp => h p (List.mem_cons_of_mem _ hp)
      have hsum : sumSnd l ≤ 0 := by
        rcases l with _ | ⟨r, l'⟩
        · simp [sumSnd]
        · calc sumSnd (r :: l') ≤ r.2 := ih h' r (List.mem_cons_self r l')
            _ ≤ 0 := h' r (List.mem_cons_self r l')
      rcases List.mem_cons.mp hp with rfl | hp'
      · rw [sumSnd_cons]
        linarith
      · rw [sumSnd_cons]
        have := ih h' p hp'
        linarith

theorem le_sumSnd_of_nonneg (l : List (String × ℚ)) (h : ∀ p ∈ l, 0 ≤ p.2) :
    ∀ p ∈ l, p.2 ≤ sumSnd l := by
  induction l with
  | nil => simp
  | cons q l ih =>
      intro p hp
      have hq : 0 ≤ q.2 := h q (List.mem_cons_self q l)
      have h' : ∀ p ∈ l, 0 ≤ p.2 := fun p hp => h p (List.mem_cons_of_mem _ hp)
      have hsum : 0 ≤ sumSnd l := by
        rcases l with _ | ⟨r, l'⟩
        · simp [sumSnd]
        · calc (0 : ℚ) ≤ r.2 := h' r (List.mem_cons_self r l')
            _ ≤ sumSnd (r :: l') := ih h' r (List.mem_cons_self r l')
      rcases List.mem_cons.mp hp with rfl | hp'
      · rw [sumSnd_cons]
        linarith
      · rw [sumSnd_cons]
        have := ih h' p hp'
        linarith

theorem neg_mul_le_sumSnd (l : List (String × ℚ)) (h : ∀ p ∈ l, -eps < p.2) :
    -((l.length : ℚ) * eps) ≤ sumSnd l := by
  induction l with
  | nil => simp [sumSnd]
  | cons q l ih =>
      have hq : -eps < q.2 := h q (List.mem_cons_self q l)
      have h' : ∀ p ∈ l, -eps < p.2 := fun p hp => h p (List.mem_cons_of_mem _ hp)
      have := ih h'
      rw [sumSnd_cons]
      simp only [List.length_cons]
      push_cast
      linarith

theorem sumSnd_le_mul (l : List (String × ℚ)) (h : ∀ p ∈ l, p.2 < eps) :
    sumSnd l ≤ (l.length : ℚ) * eps := by
  induction l with
  | nil => simp [sumSnd]
  | cons q l ih =>
      have hq : q.2 < eps := h q (List.mem_cons_self q l)
      have h' : ∀ p ∈ l, p.2 < eps := fun p hp => h p (List.mem_cons_of_mem _ hp)
      have := ih h'
      rw [sumSnd_cons]
      simp only [List.length_cons]
      push_cast
      linarith

-- ### Claim theorems

/-- C2: for every non-empty ledger, the balances computed by
`computeBalances` (each participant's amount minus the mean) sum to zero —
exactly in rational arithmetic, hence within the `1e-6` tolerance. -/
theorem computeBalances_sum_zero (l : Ledger) (hne : l ≠ []) :
    sumSnd (computeBalances l) = 0 ∧ |sumSnd (computeBalances l)| ≤ eps := by
  have h0 := sumSnd_computeBalances l hne
  refine ⟨h0, ?_⟩
  rw [h0]
  simpa using le_of_lt eps_pos

theorem computeBalances_sum_zero_witness :
    (([("A", 100), ("B", 0), ("C", 50)] : Ledger) ≠ []) ∧
      (sumSnd (computeBalances [("A", 100), ("B", 0), ("C", 50)]) = 0 ∧
        |sumSnd (computeBalances [("A", 100), ("B", 0), ("C", 50)])| ≤ eps) :=
  ⟨by decide, computeBalances_sum_zero _ (by decide)⟩

/-- C3 counterexample: a whitespace-only name is NOT rejected — the handler
only skips the empty string (Python truthiness), so `" "` is inserted with
amount `0`, contradicting the claim that whitespace-only names fail with
`DuplicateNameError`. -/
theorem addParticipant_whitespace_inserted :
    addParticipant [] " " = ([(" ", 0)], none) ∧ (" " : String) ≠ "" := by
  exact ⟨rfl, by decide⟩

/-- C3 (amended): `addParticipant` fails with the duplicate-name warning
exactly when the name is already present (case-sensitive exact match); an
empty name is silently ignored; in both failing cases the ledger is left
unchanged.  Any other name — including whitespace-only names — is appended
with `totalPaid = 0`. -/
theorem addParticipant_spec (l : Ledger) (name : String) :
    (name = "" → addParticipant l name = (l, some AddError.emptyNameIgnored)) ∧
    (name ≠ "" → name ∈ l.map (·.1) →
      addParticipant l name = (l, some AddError.duplicateName)) ∧
    (name ≠ "" → name ∉ l.map (·.1) →
      addParticipant l name = (l ++ [(name, 0)], none)) := by
  refine ⟨fun h1 => ?_, fun h1 h2 => ?_, fun h1 h2 => ?_⟩
  · simp [addParticipant, h1]
  · simp [addParticipant, h1, h2]
  · simp [addParticipant, h1, h2]

theorem addParticipant_spec_witness :
    addParticipant [("Alice", 5)] "Alice" = ([("Alice", 5)], some AddError.duplicateName) :=
  (addParticipant_spec [("Alice", 5)] "Alice").2.1 (by decide) (by decide)

/-- C4 counterexample: on the empty ledger the handler fails with the
"add participants first" guard (`EmptyLedgerError`), not with
`InvalidAmountError`, even though the amount is non-positive. -/
theorem allocate_empty_not_invalidAmount :
    allocate [] 0 Policy.equal = ([], some AllocError.emptyLedger) ∧
      AllocError.emptyLedger ≠ AllocError.invalidAmount := by
  exact ⟨rfl, by decide⟩

/-- C4 (amended): for every NON-EMPTY ledger and every non-positive amount,
`allocate` fails with `InvalidAmountError` under every policy, and the
ledger is returned unchanged. -/
theorem allocate_nonpos_amount (l : Ledger) (amount : ℚ) (p : Policy)
    (hne : l ≠ []) (h : amount ≤ 0) :
    allocate l amount p = (l, some AllocError.invalidAmount) := by
  simp [allocate, hne, h]

theorem allocate_nonpos_amount_witness :
    (([("A", 1)] : Ledger) ≠ [] ∧ (-3 : ℚ) ≤ 0) ∧
      allocate [("A", 1)] (-3) Policy.equal = ([("A", 1)], some AllocError.invalidAmount) :=
  ⟨⟨by decide, by decide⟩, allocate_nonpos_amount _ _ _ (by decide) (by decide)⟩

/-- C5 counterexample: with an out-of-tolerance share sum, `allocate` does
not always fail with `PercentageSumError`: the empty-ledger guard and the
amount guard come first in the handler. -/
theorem allocate_badShares_other_errors :
    allocate [] 5 (Policy.weighted []) = ([], some AllocError.emptyLedger) ∧
    allocate [("A", 0)] 0 (Policy.weighted [99]) = ([("A", 0)], some AllocError.invalidAmount) ∧
    1 / 100 < |(([] : List ℚ).sum - 100)| ∧
    1 / 100 < |(([99] : List ℚ).sum - 100)| ∧
    AllocError.emptyLedger ≠ AllocError.percentageSum ∧
    AllocError.invalidAmount ≠ AllocError.percentageSum := by
  refine ⟨rfl, rfl, by norm_num, by norm_num, by decide, by decide⟩

/-- C5 (amended): for every non-empty ledger, positive amount and weighted
shares with `|sum shares - 100| > 0.01`, `allocate` fails with
`PercentageSumError` and the ledger is returned unchanged (no delta is
applied). -/
theorem allocate_weighted_badSum (l : Ledger) (amount : ℚ) (shares : List ℚ)
    (hne : l ≠ []) (hpos : 0 < amount) (hbad : 1 / 100 < |shares.sum - 100|) :
    allocate l amount (Policy.weighted shares) = (l, some AllocError.percentageSum) := by
  simp only [allocate, if_neg hne, if_neg (not_le.mpr hpos), if_pos hbad]

theorem allocate_weighted_badSum_witness :
    (([("A", 7)] : Ledger) ≠ [] ∧ (0 : ℚ) < 10 ∧ 1 / 100 < |(([99] : List ℚ).sum - 100)|) ∧
      allocate [("A", 7)] 10 (Policy.weighted [99]) = ([("A", 7)], some AllocError.percentageSum) :=
  ⟨⟨by decide, by decide, by norm_num⟩,
    allocate_weighted_badSum _ _ _ (by decide) (by decide) (by norm_num)⟩

/-- C6: for every non-empty ledger and positive amount, the `Equal` policy
adds exactly `amount / N` to every participant's amount, keeping names and
order. -/
theorem allocate_equal_adds_share (l : Ledger) (amount : ℚ)
    (hne : l ≠ []) (hpos : 0 < amount) :
    allocate l amount Policy.equal =
      (l.map (fun q => (q.1, q.2 + amount / (l.length : ℚ))), none) :=
  allocate_equal_eq l amount hne hpos

theorem allocate_equal_adds_share_witness :
    allocate [("A", 1), ("B", 2), ("C", 3)] 90 Policy.equal =
      ([("A", 31), ("B", 32), ("C", 33)], none) := by
  rw [allocate_equal_adds_share _ _ (by decide) (by decide)]
  norm_num

/-- C7: for every non-empty ledger, positive amount and valid weighted
shares (one per participant, sum within `0.01` of `100`), `allocate` adds
exactly `amount * (share / 100)` to each participant, positionally, and the
result has one row per participant. -/
theorem allocate_weighted_adds_share (l : Ledger) (amount : ℚ) (shares : List ℚ)
    (hne : l ≠ []) (hpos : 0 < amount) (hlen : shares.length = l.length)
    (hsum : |shares.sum - 100| ≤ 1 / 100) :
    allocate l amount (Policy.weighted shares) =
      (List.zipWith (fun q s => (q.1, q.2 + amount * (s / 100))) l shares, none) ∧
    (List.zipWith (fun q s => (q.1, q.2 + amount * (s / 100))) l shares).length = l.length := by
  refine ⟨allocate_weighted_eq l amount shares hne hpos hsum, ?_⟩
  rw [List.length_zipWith, hlen, min_self]

theorem allocate_weighted_adds_share_witness :
    allocate [("A", 0), ("B", 0), ("C", 0)] 100 (Policy.weighted [50, 30, 20]) =
      ([("A", 50), ("B", 30), ("C", 20)], none) := by
  rw [(allocate_weighted_adds_share [("A", 0), ("B", 0), ("C", 0)] 100 [50, 30, 20]
    (by decide) (by decide) (by decide) (by norm_num)).1]
  norm_num

/-- C10: an `Equal` allocation on a non-empty ledger leaves every
participant's balance unchanged: adding `amount / N` to everyone raises the
fair share by exactly `amount / N`. -/
theorem allocate_equal_preserves_balances (l : Ledger) (amount : ℚ)
    (hne : l ≠ []) (hpos : 0 < amount) :
    computeBalances ((allocate l amount Policy.equal).1) = computeBalances l := by
  rw [allocate_equal_eq l amount hne hpos]
  have hN : ((l.length : ℕ) : ℚ) ≠ 0 := length_cast_ne_zero hne
  simp only [computeBalances, List.map_map, List.length_map, sumSnd_map_add]
  apply List.map_congr_left
  intro q hq
  simp only [Function.comp_apply, Prod.mk.injEq, true_and]
  field_simp

theorem allocate_equal_preserves_balances_witness :
    (([("A", 10), ("B", 0)] : Ledger) ≠ [] ∧ (0 : ℚ) < 8) ∧
      computeBalances ((allocate [("A", 10), ("B", 0)] 8 Policy.equal).1) =
        computeBalances [("A", 10), ("B", 0)] :=
  ⟨⟨by decide, by decide⟩, allocate_equal_preserves_balances _ _ (by decide) (by decide)⟩

/-- C8 counterexample ledger: balances are `+5e-7` and `-5e-7`, both within
`eps` of zero, yet the code still classifies them as creditor/debtor (it
partitions by `< 0` / `> 0`, not by `±eps`) and emits a transfer. -/
def nearSettledLedger : Ledger := [("A", 1 + 5/10000000), ("B", 1 - 5/10000000)]

/-- C8 counterexample: every balance of `nearSettledLedger` is within `eps`
of zero, yet the partition is non-trivial (`B` is a debtor although its
balance is not below `-eps`) and `computeSettlement` returns a non-empty
transfer list instead of the empty one the claim requires. -/
theorem settlement_within_eps_not_empty :
    (∀ p ∈ computeBalances nearSettledLedger, |p.2| < eps) ∧
    debtors (computeBalances nearSettledLedger) = [("B", -1/2000000)] ∧
    ¬ ((-1 : ℚ)/2000000 < -eps) ∧
    computeSettlement (computeBalances nearSettledLedger) =
      some ([("B", "A", 1/2000000)], [("B", 0)], [("A", 0)]) ∧
    ([("B", "A", (1 : ℚ)/2000000)] : List (String × String × ℚ)) ≠ [] := by
  refine ⟨?_, ?_, ?_, ?_, ?_⟩
  · norm_num [nearSettledLedger, computeBalances, sumSnd, eps, abs_lt]
  · norm_num [nearSettledLedger, computeBalances, sumSnd, debtors, List.filter]
  · norm_num [eps]
  · norm_num [nearSettledLedger, computeBalances, sumSnd, computeSettlement, debtors, creditors,
      List.filter, settleLoopF, eps, min_def, abs_lt]
  · simp

/-- C8 (amended): `computeSettlement` partitions participants into debtors
(balance < 0) and creditors (balance > 0) — strict zero thresholds, not
`±eps` — preserving original relative order within each group; when every
participant's balance is exactly zero it returns an empty transfer list. -/
theorem settlement_partition_spec (bal : List (String × ℚ)) :
    List.Sublist (debtors bal) bal ∧ List.Sublist (creditors bal) bal ∧
    (∀ p, p ∈ debtors bal ↔ p ∈ bal ∧ p.2 < 0) ∧
    (∀ p, p ∈ creditors bal ↔ p ∈ bal ∧ 0 < p.2) ∧
    ((∀ p ∈ bal, p.2 = 0) → computeSettlement bal = some ([], [], [])) := by
  refine ⟨List.filter_sublist _, List.filter_sublist _, mem_debtors bal, mem_creditors bal, ?_⟩
  intro hz
  have hd : debtors bal = [] := by
    rw [debtors, List.filter_eq_nil_iff]
    intro p hp
    simp [hz p hp]
  have hc : creditors bal = [] := by
    rw [creditors, List.filter_eq_nil_iff]
    intro p hp
    simp [hz p hp]
  rw [computeSettlement, hd, hc]
  rfl

theorem settlement_partition_spec_witness :
    computeSettlement [("A", (0 : ℚ))] = some ([], [], []) :=
  (settlement_partition_spec _).2.2.2.2 (by simp)

/-- C9: the greedy settlement loop terminates on every balance list: fuel
`|debtors| + |creditors|` always suffices, because in each iteration the
payment `min (-db) cb` zeroes the current debtor or the current creditor
balance, so at least one pointer advances (`pay_dichotomy`), and the loop
stops as soon as either frame is exhausted. -/
theorem computeSettlement_isSome (bal : List (String × ℚ)) :
    (computeSettlement bal).isSome :=
  settleLoopF_isSome _ _ _ le_rfl

/-- C1 counterexample ledger: two debtors each owing `1 + 6e-7` and three
creditors owed `1`, `1` and `1.2e-6`.  Both debtors advance with residual
`-6e-7` (within `eps`), so the loop ends with creditor `C3` untouched at
`1.2e-6 > eps`. -/
def cexLedger : Ledger :=
  [("D1", 1 - 6/10000000), ("D2", 1 - 6/10000000), ("C1", 3), ("C2", 3), ("C3", 2 + 12/10000000)]

/-- C1 counterexample: on `cexLedger` the greedy settlement terminates with
creditor `C3`'s adjusted balance equal to `3/2500000 = 1.2e-6`, which is NOT
within `eps = 1e-6` of zero — refuting the claim that after applying all
transfers every participant's adjusted balance is within `eps` of zero. -/
theorem computeSettlement_residual_exceeds_eps :
    computeSettlement (computeBalances cexLedger) =
      some ([("D1", "C1", 1), ("D2", "C2", 1)],
        [("D1", -3/5000000), ("D2", -3/5000000)],
        [("C1", 0), ("C2", 0), ("C3", 3/2500000)]) ∧
    eps < |(3 : ℚ)/2500000| := by
  constructor
  · norm_num [cexLedger, computeBalances, sumSnd, computeSettlement, debtors, creditors,
      List.filter, settleLoopF, eps, min_def, abs_lt]
  · norm_num [eps, lt_abs]

/-- C1 (amended): for every non-empty ledger, the greedy settlement over the
computed balances succeeds with at most `D + C - 1` transfers (`D`/`C` the
number of debtors/creditors), every transfer amount strictly positive, and
after applying all transfers every participant's adjusted balance within
`(D + C) * eps` of zero — the per-participant `eps` bound of the original
claim fails (see the counterexample), but residuals are bounded by
`settledBound`.  Debtor/creditor finals are the balance columns returned by
the loop; participants with exactly zero balance are never touched. -/
theorem computeSettlement_greedy_guarantees (l : Ledger) (hne : l ≠ []) :
    ∃ ts fds fcs,
      computeSettlement (computeBalances l) = some (ts, fds, fcs) ∧
      ts.length ≤ (debtors (computeBalances l)).length +
        (creditors (computeBalances l)).length - 1 ∧
      (∀ t ∈ ts, 0 < t.2.2) ∧
      (∀ p ∈ fds, |p.2| ≤ settledBound (computeBalances l)) ∧
      (∀ p ∈ fcs, |p.2| ≤ settledBound (computeBalances l)) ∧
      (∀ p ∈ computeBalances l, ¬ p.2 < 0 → ¬ 0 < p.2 →
        |p.2| ≤ settledBound (computeBalances l)) := by
  have hterm := settleLoopF_isSome
    ((debtors (computeBalances l)).length + (creditors (computeBalances l)).length)
    (debtors (computeBalances l)) (creditors (computeBalances l)) le_rfl
  rw [Option.isSome_iff_exists] at hterm
  obtain ⟨⟨ts, fds, fcs⟩, hr⟩ := hterm
  have hd : ∀ p ∈ debtors (computeBalances l), p.2 < 0 :=
    fun p hp => ((mem_debtors _ p).mp hp).2
  have hc : ∀ p ∈ creditors (computeBalances l), 0 < p.2 :=
    fun p hp => ((mem_creditors _ p).mp hp).2
  obtain ⟨icnt, ipos, ilen1, ilen2, isum, isg1, isg2, iside⟩ :=
    settleLoopF_invariant _ _ _ _ _ _ hd hc hr
  have hsum0 : sumSnd fds + sumSnd fcs = 0 := by
    rw [isum, sumSnd_debtors_add_creditors, sumSnd_computeBalances l hne]
  have hbound0 : 0 ≤ settledBound (computeBalances l) :=
    mul_nonneg (Nat.cast_nonneg _) (le_of_lt eps_pos)
  have hDle : ((fds.length : ℕ) : ℚ) * eps ≤ settledBound (computeBalances l) := by
    apply mul_le_mul_of_nonneg_right _ (le_of_lt eps_pos)
    rw [ilen1]
    exact_mod_cast Nat.le_add_right _ _
  have hCle : ((fcs.length : ℕ) : ℚ) * eps ≤ settledBound (computeBalances l) := by
    apply mul_le_mul_of_nonneg_right _ (le_of_lt eps_pos)
    rw [ilen2]
    exact_mod_cast Nat.le_add_left _ _
  have heps_of_mem_fds : fds ≠ [] → eps ≤ settledBound (computeBalances l) := by
    intro hne'
    calc eps = 1 * eps := (one_mul eps).symm
      _ ≤ ((fds.length : ℕ) : ℚ) * eps := by
          apply mul_le_mul_of_nonneg_right _ (le_of_lt eps_pos)
          exact_mod_cast List.length_pos.mpr hne'
      _ ≤ _ := hDle
  have heps_of_mem_fcs : fcs ≠ [] → eps ≤ settledBound (computeBalances l) := by
    intro hne'
    calc eps = 1 * eps := (one_mul eps).symm
      _ ≤ ((fcs.length : ℕ) : ℚ) * eps := by
          apply mul_le_mul_of_nonneg_right _ (le_of_lt eps_pos)
          exact_mod_cast List.length_pos.mpr hne'
      _ ≤ _ := hCle
  have hfinal : (∀ p ∈ fds, |p.2| ≤ settledBound (computeBalances l)) ∧
      (∀ p ∈ fcs, |p.2| ≤ settledBound (computeBalances l)) := by
    rcases iside with hside | hside
    · constructor
      · intro p hp
        rw [abs_of_nonpos (isg1 p hp)]
        have h2 := hside p hp
        have h3 := heps_of_mem_fds (List.ne_nil_of_mem hp)
        linarith
      · intro p hp
        rw [abs_of_nonneg (isg2 p hp)]
        have h2 := le_sumSnd_of_nonneg fcs isg2 p hp
        have h3 := neg_mul_le_sumSnd fds hside
        linarith
    · constructor
      · intro p hp
        rw [abs_of_nonpos (isg1 p hp)]
        have h2 := sumSnd_le_of_nonpos fds isg1 p hp
        have h3 := sumSnd_le_mul fcs hside
        linarith
      · intro p hp
        rw [abs_of_nonneg (isg2 p hp)]
        have h2 := hside p hp
        have h3 := heps_of_mem_fcs (List.ne_nil_of_mem hp)
        linarith
  refine ⟨ts, fds, fcs, hr, icnt, ipos, hfinal.1, hfinal.2, ?_⟩
  intro p hp hnlt hngt
  have hz : p.2 = 0 := le_antisymm (not_lt.mp hngt) (not_lt.mp hnlt)
  rw [hz, abs_zero]
  exact hbound0

theorem computeSettlement_greedy_guarantees_witness :
    (([("A", 100), ("B", 0), ("C", 50)] : Ledger) ≠ []) ∧
    (∃ ts fds fcs,
      computeSettlement (computeBalances [("A", 100), ("B", 0), ("C", 50)]) =
        some (ts, fds, fcs) ∧
      ts.length ≤ (debtors (computeBalances [("A", 100), ("B", 0), ("C", 50)])).length +
        (creditors (computeBalances [("A", 100), ("B", 0), ("C", 50)])).length - 1 ∧
      (∀ t ∈ ts, 0 < t.2.2) ∧
      (∀ p ∈ fds, |p.2| ≤ settledBound (computeBalances [("A", 100), ("B", 0), ("C", 50)])) ∧
      (∀ p ∈ fcs, |p.2| ≤ settledBound (computeBalances [("A", 100), ("B", 0), ("C", 50)])) ∧
      (∀ p ∈ computeBalances [("A", 100), ("B", 0), ("C", 50)], ¬ p.2 < 0 → ¬ 0 < p.2 →
        |p.2| ≤ settledBound (computeBalances [("A", 100), ("B", 0), ("C", 50)]))) :=
  ⟨by decide, computeSettlement_greedy_guarantees _ (by decide)⟩
